import Mathlib

/-!
Verification of the CounterGo search core: a shallow embedding of the
engine's alpha-beta search (`engine/search.go`), time management
(`engine/timemanagement.go`) and the coordinate-descent tuner, together
with theorems settling the specification claims.

External board primitives (the `common` package: move generation,
make-move, check detection, SEE, evaluation, transposition table and
sort-table implementations) are not part of the analysed sources; they
are modelled as an abstract environment `SearchEnv` of functions, and
the shared transposition/sort-table store as an abstract state type `S`
threaded through the search.  Panics (`searchTimeout`) are modelled by
the `Except` monad; recursion on search height is driven by an explicit
fuel parameter (the Go code terminates because height is bounded by
`maxHeight`; fuel exhaustion is a distinguished `Fault.fuelOut`).
-/

namespace CounterGo

/-- A move.  The analysed sources read only the destination square and the
captured piece of a move and compare moves for equality; `tag` keeps the
model injective for the remaining (unread) move data.  Modelled from the
spec: moves are opaque values exposing to-square and captured piece, with
a sentinel empty move (the all-zero encoding, which captures None). -/
structure Move where
  toSq : Nat
  captured : Nat
  tag : Nat
deriving DecidableEq, Repr

/-- The sentinel empty move (`MoveEmpty` in Go, the zero encoding). -/
def MoveEmpty : Move := ⟨0, 0, 0⟩

/-- Modelled from the spec: piece ordering None(0) < Pawn(1) < Knight < …
(the `common` package's piece constants); only `Pawn` is used here. -/
def piecePawn : Nat := 1

/-- A position, with exactly the fields the analysed sources read
directly: side to move, zobrist key, rule-50 counter, last move, and the
piece bitboards used by draw detection.  All other behaviour of
positions is accessed through the environment's functions. -/
structure Position where
  whiteMove : Bool
  key : Nat
  rule50 : Nat
  lastMove : Move
  pawns : Nat
  knights : Nat
  bishops : Nat
  rooks : Nat
  queens : Nat
deriving DecidableEq, Repr

/-- `OrderedMove`: a move paired with its ordering key. -/
structure OrderedMove where
  move : Move
  key : Int
deriving DecidableEq, Repr

/-- A transposition-table entry as read by the search:
(depth, score, bound, move). -/
structure TTEntry where
  depth : Int
  score : Int
  bound : Nat
  move : Move
deriving DecidableEq, Repr

/-- Modelled from the spec: bound is a 2-bit set; `boundLower` marks a
fail-high / beta cutoff. -/
def boundLower : Nat := 1

/-- Modelled from the spec: `boundUpper` marks a fail-low. -/
def boundUpper : Nat := 2

/-- `valueDraw = 0`. -/
def valueDraw : Int := 0

/-- The per-thread mutable data the search touches besides the stack:
the node counter and the shared store (transposition table and sort
table), abstracted as `S`. -/
structure SState (S : Type) where
  nodes : Nat
  s : S
deriving DecidableEq, Repr

/-- Non-value exits of the embedded search: the `searchTimeout` panic,
or exhaustion of the embedding's fuel (an artifact of the shallow
embedding; the Go recursion is bounded by `maxHeight`). -/
inductive Fault where
  | timeout : Fault
  | fuelOut : Fault
deriving DecidableEq, Repr

/-- The engine's current main line. -/
structure MainLine where
  depth : Int
  score : Int
  moves : List Move
deriving DecidableEq, Repr

/-- The abstract environment: constants of the engine and the external
board/table primitives the analysed sources call.  `isDone` gives the
outcome of polling the cancellation channel as a function of the node
count at the poll; `searchRoot`, `isDoneAt`, `isSoftAt` abstract the
parallel root search and the polls made between iterative-deepening
iterations (their concurrency is outside a shallow embedding). -/
structure SearchEnv (S : Type) where
  maxHeight : Nat
  valueWin : Int
  valueInfinity : Int
  pawnValue : Int
  sortTableKeyImportant : Int
  isDone : Nat → Bool
  isCheck : Position → Bool
  makeMove : Position → Move → Option Position
  makeNullMove : Position → Position
  generateMoves : Position → List Move
  generateCaptures : Position → Bool → List Move
  evaluate : Position → Int
  seeGEZero : Position → Move → Bool
  isCaptureOrPromotion : Move → Bool
  isPawnAdvance : Move → Bool → Bool
  isPawnPush7th : Move → Bool → Bool
  isDangerCapture : Position → Move → Bool
  isLateEndgame : Position → Bool → Bool
  moveValue : Move → Int
  lateMoveReduction : Int → Int → Int
  valueToTT : Int → Nat → Int
  valueFromTT : Int → Nat → Int
  historyKeys : Nat → Nat
  ttRead : S → Position → Option TTEntry
  ttUpdate : S → Position → Int → Int → Nat → Move → S
  noteKey : S → Position → Move → Nat → Move → Int
  noteKeyQS : S → Position → Move → Int
  sortUpdate : S → Position → Move → List Move → Int → Nat → S
  sortMoves : List OrderedMove → List OrderedMove
  searchRoot : List Move → Int → Int × MainLine × List Move
  isDoneAt : Nat → Bool
  isSoftAt : Nat → Bool

variable {S : Type}

/-- `lossIn(height) = -valueWin + height`. -/
def lossIn (env : SearchEnv S) (h : Int) : Int := -env.valueWin + h

/-- `winIn(height) = valueWin - height`. -/
def winIn (env : SearchEnv S) (h : Int) : Int := env.valueWin - h

/-- `MoreThanOne(bb)`: more than one bit set, by the `bb & (bb-1)`
trick (the `common` package helper used by `isDraw`). -/
def MoreThanOne (b : Nat) : Bool := decide (b &&& (b - 1) ≠ 0)

/-- `incNodes`: increment the node counter; on every 256th node poll the
done channel and panic with `searchTimeout` if it fired
(search.go lines 307-312). -/
def incNodesStep (env : SearchEnv S) (st : SState S) : Except Fault (SState S) :=
  let n := st.nodes + 1
  if n &&& 255 = 0 ∧ env.isDone n = true then Except.error Fault.timeout
  else Except.ok ⟨n, st.s⟩

/-- The backward repetition scan of `isDraw` (search.go lines 335-343)
over the stack of ancestor positions, most recent first:
`some true` = key match found, `some false` = stopped at a rule-50 reset
or a null move, `none` = stack exhausted. -/
def repScan (key : Nat) : List Position → Option Bool
  | [] => none
  | q :: rest =>
    if q.key = key then some true
    else if q.rule50 = 0 ∨ q.lastMove = MoveEmpty then some false
    else repScan key rest

/-- `isDraw` (search.go lines 323-350): insufficient material, rule-50,
repetition in the search stack, else (only when the scan exhausts the
stack) the pre-search history keys. -/
def isDraw (env : SearchEnv S) (below : List Position) (p : Position) : Bool :=
  if (p.pawns ||| p.rooks ||| p.queens) = 0 ∧ MoreThanOne (p.knights ||| p.bishops) = false then
    true
  else if 100 < p.rule50 then true
  else
    match repScan p.key below with
    | some b => b
    | none => if 2 ≤ env.historyKeys p.key then true else false

/-- `newDepth` (search.go lines 352-376): recapture, check and
pawn-push-to-7th extensions keep the depth; otherwise depth - 1. -/
def newDepthGo (env : SearchEnv S) (p child : Position) (depth : Int) : Int :=
  let prevMove := p.lastMove
  let move := child.lastMove
  let givesCheck := env.isCheck child
  if prevMove ≠ MoveEmpty ∧ prevMove.toSq = move.toSq ∧
      piecePawn < move.captured ∧ piecePawn < prevMove.captured ∧
      env.seeGEZero p move = true then
    depth
  else if givesCheck = true ∧ (depth ≤ 1 ∨ env.seeGEZero p move = true) then depth
  else if env.isPawnPush7th move p.whiteMove = true ∧ env.seeGEZero p move = true then depth
  else depth - 1

/-- `recoverFromSearchTimeout` (search.go lines 378-383), over generic
panic values: recover swallows exactly the `searchTimeout` sentinel and
re-panics every other non-nil value. -/
inductive Panicv where
  | timeout : Panicv
  | other : Nat → Panicv
deriving DecidableEq, Repr

/-- The deferred recover wrapper: applied to a computation's outcome. -/
def recoverFromSearchTimeout : Except Panicv Unit → Except Panicv Unit
  | Except.error Panicv.timeout => Except.ok ()
  | r => r

/-- The inner helper of `moveToTop`: the Go scan for the index of the
(first) maximal key, carrying the current best value and index. -/
def moveToTopScan : List OrderedMove → Nat → OrderedMove → Nat → Nat
  | [], _, _, best => best
  | x :: rest, i, bv, best =>
    if bv.key < x.key then moveToTopScan rest (i + 1) x i
    else moveToTopScan rest (i + 1) bv best

/-- `moveToTop` (search.go lines 396-406): swap the element with the
maximal key to the front. -/
def moveToTop (ml : List OrderedMove) : List OrderedMove :=
  match ml with
  | [] => []
  | x :: rest =>
    let best := moveToTopScan rest 1 x 0
    if best = 0 then ml
    else
      match ml.get? best with
      | some b => (ml.set 0 b).set best x
      | none => ml

/-- The state carried through the quiescence move loop is (alpha,
moveCount, store); its result on normal exit or break. -/
def qsLoop (env : SearchEnv S)
    (search : Int → Int → Int → Position → SState S → Except Fault (Int × SState S))
    (pos : Position) (isCheck : Bool) (eval beta qdepth : Int) :
    List OrderedMove → Int → Nat → SState S → Except Fault (Int × Nat × SState S)
  | [], alpha, mc, st => Except.ok (alpha, mc, st)
  | om :: rest, alpha, mc, st =>
    let mv := om.move
    let danger := env.isDangerCapture pos mv
    if isCheck = false ∧ danger = false ∧ env.seeGEZero pos mv = false then
      qsLoop env search pos isCheck eval beta qdepth rest alpha mc st
    else
      match env.makeMove pos mv with
      | none => qsLoop env search pos isCheck eval beta qdepth rest alpha mc st
      | some child =>
        if isCheck = false ∧ danger = false ∧ env.isCheck child = false ∧
            eval + env.moveValue mv + 2 * env.pawnValue ≤ alpha then
          qsLoop env search pos isCheck eval beta qdepth rest alpha (mc + 1) st
        else
          match search (-beta) (-alpha) (qdepth - 1) child st with
          | Except.error f => Except.error f
          | Except.ok (s, st') =>
            let score := -s
            if alpha < score then
              if beta ≤ score then Except.ok (score, mc + 1, st')
              else qsLoop env search pos isCheck eval beta qdepth rest score (mc + 1) st'
            else qsLoop env search pos isCheck eval beta qdepth rest alpha (mc + 1) st'

/-- `quiescence` (search.go lines 251-305). -/
def quiescence (env : SearchEnv S) :
    Nat → Position → Int → Int → Int → Nat → SState S → Except Fault (Int × SState S)
  | 0, _, _, _, _, _, _ => Except.error Fault.fuelOut
  | Nat.succ n, pos, alpha, beta, qdepth, height, st =>
    match incNodesStep env st with
    | Except.error f => Except.error f
    | Except.ok st1 =>
      if env.maxHeight ≤ height then Except.ok (valueDraw, st1)
      else
        let isCheck := env.isCheck pos
        let eval := if isCheck = false then env.evaluate pos else 0
        let alpha1 := if isCheck = false ∧ alpha < eval then eval else alpha
        if isCheck = false ∧ beta ≤ eval then Except.ok (alpha1, st1)
        else
          let ml0 := if env.isCheck pos = true then env.generateMoves pos
                     else env.generateCaptures pos (decide (0 < qdepth))
          let ml := env.sortMoves (ml0.map (fun m => OrderedMove.mk m (env.noteKeyQS st1.s pos m)))
          match qsLoop env (fun a b d c stx => quiescence env n c a b d (height + 1) stx)
              pos isCheck eval beta qdepth ml alpha1 0 st1 with
          | Except.error f => Except.error f
          | Except.ok (alphaF, mc, st2) =>
            if isCheck = true ∧ mc = 0 then Except.ok (lossIn env height, st2)
            else Except.ok (alphaF, st2)

/-- The transposition-table probe of `alphaBeta` (search.go lines
121-132): either an immediate cutoff score, or the hash move. -/
def ttProbe (env : SearchEnv S) (s : S) (pos : Position) (depth alpha beta : Int)
    (height : Nat) : Sum Int Move :=
  match env.ttRead s pos with
  | none => Sum.inr MoveEmpty
  | some e =>
    if depth ≤ e.depth then
      let tts := env.valueFromTT e.score height
      if beta ≤ tts ∧ e.bound &&& boundLower ≠ 0 then Sum.inl beta
      else if tts ≤ alpha ∧ e.bound &&& boundUpper ≠ 0 then Sum.inl alpha
      else Sum.inr e.move
    else Sum.inr e.move

/-- The null-move phase of `alphaBeta` (search.go lines 134-148):
`some beta` is a null-move cutoff. -/
def nullMovePhase (env : SearchEnv S)
    (search : Int → Int → Int → Position → SState S → Except Fault (Int × SState S))
    (quiesce : Int → Int → Int → Position → SState S → Except Fault (Int × SState S))
    (pos : Position) (depth beta : Int) (isCheck : Bool) (st : SState S) :
    Except Fault (Option Int × SState S) :=
  if 2 ≤ depth ∧ isCheck = false ∧ pos.lastMove ≠ MoveEmpty ∧ beta < env.valueWin ∧
      env.isLateEndgame pos pos.whiteMove = false then
    let nd := depth - 4
    let child := env.makeNullMove pos
    let r := if nd ≤ 0 then quiesce (-beta) (-(beta - 1)) 1 child st
             else search (-beta) (-(beta - 1)) nd child st
    match r with
    | Except.error f => Except.error f
    | Except.ok (s, st1) =>
      let score := -s
      if beta ≤ score ∧ score < env.valueWin then Except.ok (some beta, st1)
      else Except.ok (none, st1)
  else Except.ok (none, st)

/-- The internal-iterative-deepening phase of `alphaBeta` (search.go
lines 150-155): a reduced-depth search at the same node to populate the
transposition table, then a re-read of the hash move. -/
def iidPhase (env : SearchEnv S)
    (search : Int → Int → Int → SState S → Except Fault (Int × SState S))
    (pos : Position) (depth alpha beta : Int) (hashMove : Move) (st : SState S) :
    Except Fault (Move × SState S) :=
  if 4 ≤ depth ∧ hashMove = MoveEmpty ∧ alpha + env.pawnValue / 2 < beta then
    match search alpha beta (depth - 2) st with
    | Except.error f => Except.error f
    | Except.ok (_, st1) =>
      match env.ttRead st1.s pos with
      | some e => Except.ok (e.move, st1)
      | none => Except.ok (MoveEmpty, st1)
  else Except.ok (hashMove, st)

/-- The accumulators of the main move loop of `alphaBeta`. -/
structure ABLoop (S : Type) where
  alpha : Int
  moveCount : Nat
  bestMove : Move
  staticEval : Int
  quiets : List Move
  st : SState S
deriving DecidableEq, Repr

/-- The full-window child search of the move loop
(search.go line 215). -/
def abFull (env : SearchEnv S)
    (search : Int → Int → Int → Position → SState S → Except Fault (Int × SState S))
    (alphaCur beta nd : Int) (child : Position) (st : SState S) :
    Except Fault (Option Int × SState S) :=
  match search (-beta) (-alphaCur) nd child st with
  | Except.error f => Except.error f
  | Except.ok (s, st1) => Except.ok (some (-s), st1)

/-- Reduced null-window search plus (on passing) the full-window
re-search (search.go lines 208-215); `none` means the reduced search
failed low and the move is skipped. -/
def abStep (env : SearchEnv S)
    (search : Int → Int → Int → Position → SState S → Except Fault (Int × SState S))
    (depth alphaCur beta reduction nd : Int) (child : Position) (st : SState S) :
    Except Fault (Option Int × SState S) :=
  if 0 < reduction then
    match search (-(alphaCur + 1)) (-alphaCur) (depth - 1 - reduction) child st with
    | Except.error f => Except.error f
    | Except.ok (s, st1) =>
      if -s ≤ alphaCur then Except.ok (none, st1)
      else abFull env search alphaCur beta nd child st1
  else abFull env search alphaCur beta nd child st

/-- The main move loop of `alphaBeta` (search.go lines 166-226), with
the lazy ordering (`moveToTop` for the first four iterations, a full
sort of the tail at the fourth), legality filtering, futility and
late-move pruning, late-move reduction, and the alpha/bestMove/break
updates.  The first `Nat` is the iteration budget (the Go loop runs
`len(ml)` times); the second is the iteration index `i`. -/
def abLoop (env : SearchEnv S)
    (search : Int → Int → Int → Position → SState S → Except Fault (Int × SState S))
    (pos : Position) (depth : Int) (isCheck : Bool) (beta : Int) :
    Nat → Nat → List OrderedMove → ABLoop S → Except Fault (ABLoop S)
  | 0, _, _, ls => Except.ok ls
  | Nat.succ n, i, rem0, ls =>
    let rem := if i < 4 then moveToTop rem0 else if i = 4 then env.sortMoves rem0 else rem0
    match rem with
    | [] => Except.ok ls
    | om :: rest =>
      match env.makeMove pos om.move with
      | none => abLoop env search pos depth isCheck beta n (i + 1) rest ls
      | some child =>
        let mc := ls.moveCount + 1
        let nd := newDepthGo env pos child depth
        let gate := env.isCaptureOrPromotion om.move = false ∧ 1 < mc ∧ isCheck = false ∧
          env.isCheck child = false ∧ om.key < env.sortTableKeyImportant ∧
          env.isPawnAdvance om.move pos.whiteMove = false ∧ -env.valueWin < ls.alpha
        let se := if gate ∧ depth ≤ 1 ∧ ls.staticEval = env.valueInfinity
                  then env.evaluate pos else ls.staticEval
        let ls1 : ABLoop S := ⟨ls.alpha, mc, ls.bestMove, se, ls.quiets, ls.st⟩
        if gate ∧ depth ≤ 1 ∧ se + env.pawnValue * depth ≤ ls.alpha then
          abLoop env search pos depth isCheck beta n (i + 1) rest ls1
        else if gate ∧ depth ≤ 2 ∧ 9 + 3 * depth ≤ (mc : Int) then
          abLoop env search pos depth isCheck beta n (i + 1) rest ls1
        else
          let reduction := if gate ∧ 3 ≤ depth then env.lateMoveReduction depth (mc : Int) else 0
          let quiets1 := if env.isCaptureOrPromotion om.move = false
                         then ls.quiets ++ [om.move] else ls.quiets
          let ls2 : ABLoop S := ⟨ls1.alpha, mc, ls1.bestMove, se, quiets1, ls1.st⟩
          match abStep env search depth ls2.alpha beta reduction nd child ls2.st with
          | Except.error f => Except.error f
          | Except.ok (none, stA) =>
            abLoop env search pos depth isCheck beta n (i + 1) rest
              ⟨ls2.alpha, mc, ls2.bestMove, se, quiets1, stA⟩
          | Except.ok (some score, stB) =>
            if ls2.alpha < score then
              if beta ≤ score then
                Except.ok ⟨score, mc, om.move, se, quiets1, stB⟩
              else
                abLoop env search pos depth isCheck beta n (i + 1) rest
                  ⟨score, mc, om.move, se, quiets1, stB⟩
            else
              abLoop env search pos depth isCheck beta n (i + 1) rest
                ⟨ls2.alpha, mc, ls2.bestMove, se, quiets1, stB⟩

/-- The code after the move loop of `alphaBeta` (search.go lines
228-248): checkmate/stalemate result when no legal move was played,
else the sort-table update for a quiet best move, the composition of
the bound bits, the transposition-table store, and the return of
alpha. -/
def alphaBetaFinish (env : SearchEnv S) (pos : Position) (depth : Int) (height : Nat)
    (isCheck : Bool) (beta : Int) (ls : ABLoop S) : Int × SState S :=
  if ls.moveCount = 0 then
    (if isCheck = true then lossIn env height else valueDraw, ls.st)
  else
    let s1 := if ls.bestMove ≠ MoveEmpty ∧ env.isCaptureOrPromotion ls.bestMove = false
              then env.sortUpdate ls.st.s pos ls.bestMove ls.quiets depth height
              else ls.st.s
    let ttType := (if ls.bestMove ≠ MoveEmpty then boundLower else 0) |||
                  (if ls.alpha < beta then boundUpper else 0)
    let s2 := env.ttUpdate s1 pos depth (env.valueToTT ls.alpha height) ttType ls.bestMove
    (ls.alpha, ⟨ls.st.nodes, s2⟩)

/-- `alphaBeta` (search.go lines 95-249).  `below` is the stack of
ancestor positions (most recent first), so `height = below.length`. -/
def alphaBeta (env : SearchEnv S) :
    Nat → List Position → Position → Int → Int → Int → SState S → Except Fault (Int × SState S)
  | 0, _, _, _, _, _, _ => Except.error Fault.fuelOut
  | Nat.succ n, below, pos, alpha, beta, depth, st =>
    let height := below.length
    if env.maxHeight ≤ height ∨ isDraw env below pos = true then Except.ok (valueDraw, st)
    else if depth ≤ 0 then quiescence env n pos alpha beta 1 height st
    else
      match incNodesStep env st with
      | Except.error f => Except.error f
      | Except.ok st1 =>
        let isCheck := env.isCheck pos
        if winIn env (height + 1) ≤ alpha then Except.ok (alpha, st1)
        else if beta ≤ lossIn env (height + 2) ∧ isCheck = false then Except.ok (beta, st1)
        else
          match ttProbe env st1.s pos depth alpha beta height with
          | Sum.inl cut => Except.ok (cut, st1)
          | Sum.inr hm0 =>
            match nullMovePhase env
                (fun a b d c stx => alphaBeta env n (pos :: below) c a b d stx)
                (fun a b d c stx => quiescence env n c a b d (height + 1) stx)
                pos depth beta isCheck st1 with
            | Except.error f => Except.error f
            | Except.ok (some cut, st2) => Except.ok (cut, st2)
            | Except.ok (none, st2) =>
              match iidPhase env (fun a b d stx => alphaBeta env n below pos a b d stx)
                  pos depth alpha beta hm0 st2 with
              | Except.error f => Except.error f
              | Except.ok (hashMove, st3) =>
                let ml := (env.generateMoves pos).map
                  (fun m => OrderedMove.mk m (env.noteKey st3.s pos hashMove height m))
                let init : ABLoop S := ⟨alpha, 0, MoveEmpty, env.valueInfinity, [], st3⟩
                match abLoop env
                    (fun a b d c stx => alphaBeta env n (pos :: below) c a b d stx)
                    pos depth isCheck beta ml.length 0 ml init with
                | Except.error f => Except.error f
                | Except.ok ls => Except.ok (alphaBetaFinish env pos depth height isCheck beta ls)

/-- `mainLine.update` (engine.go): replace depth, score and moves. -/
def mainLineUpdate (_prior : MainLine) (depth score : Int) (moves : List Move) : MainLine :=
  ⟨depth, score, moves⟩

/-- `genRootMoves` (search.go lines 408-425): generate, note with the
transposition move, sort, and keep the legal moves. -/
def genRootMoves (env : SearchEnv S) (s : S) (p : Position) : List Move :=
  let transMove := match env.ttRead s p with
                   | some e => e.move
                   | none => MoveEmpty
  let ml := env.sortMoves ((env.generateMoves p).map
    (fun m => OrderedMove.mk m (env.noteKey s p transMove 0 m)))
  (ml.filter (fun om => (env.makeMove p om.move).isSome)).map (fun om => om.move)

/-- The iterative-deepening loop body (search.go lines 24-39), with the
parallel root search abstracted by `env.searchRoot` and the polls by
`env.isDoneAt` / `env.isSoftAt` (indexed by the number of completed
iterations).  Returns the final main line and the number of completed
`searchRootParallel` iterations. -/
def idLoop (env : SearchEnv S) :
    Nat → Int → List Move → MainLine → Int → Nat → MainLine × Nat
  | 0, _, _, mlm, _, iters => (mlm, iters)
  | Nat.succ f, depth, ml, _, prevScore, iters =>
    let r := env.searchRoot ml depth
    let mlm1 := r.2.1
    let ml1 := r.2.2
    let iters1 := iters + 1
    if env.isDoneAt iters1 = true then (mlm1, iters1)
    else if winIn env (depth - 3) ≤ mlm1.score ∨ mlm1.score ≤ lossIn env (depth - 3) then
      (mlm1, iters1)
    else if |prevScore - mlm1.score| ≤ env.pawnValue / 2 ∧ env.isSoftAt iters1 = true then
      (mlm1, iters1)
    else idLoop env f (depth + 1) ml1 mlm1 mlm1.score iters1

/-- `iterativeDeepening` (search.go lines 12-40): the entry logic and
the depth loop.  Returns the final main line and the number of
completed root-search iterations. -/
def iterativeDeepening (env : SearchEnv S) (prior : MainLine) (p : Position) (s : S) :
    MainLine × Nat :=
  match genRootMoves env s p with
  | [] => (prior, 0)
  | m :: rest =>
    let ml1 := mainLineUpdate prior 0 0 [m]
    if rest.isEmpty = true then (ml1, 0)
    else idLoop env env.maxHeight 1 (m :: rest) ml1 0 0

/-- Go's `int(x)` conversion from float: truncation toward zero,
modelled on exact rationals. -/
def truncQ (x : ℚ) : Int := if 0 ≤ x then ⌊x⌋ else ⌈x⌉

/-- `timeControlSmart` (timemanagement.go lines 94-117), with the
float64 arithmetic modelled by exact rationals. -/
def timeControlSmart (main inc moves0 : Int) : Int × Int :=
  let movesToGo : Int := 50
  let lastMoveReserve : Int := 300
  let moves := if moves0 = 0 ∨ movesToGo < moves0 then movesToGo else moves0
  let maxLimit0 := main - lastMoveReserve
  let maxLimit := if 1 < moves then min maxLimit0 (main / 2 + inc) else maxLimit0
  let safeMoves : ℚ := (moves : ℚ) * (2 - (moves : ℚ) / (movesToGo : ℚ))
  let softLimit0 := truncQ ((main : ℚ) / safeMoves) + inc
  let hardLimit0 := softLimit0 * 4
  (max 1 (min maxLimit softLimit0), max 1 (min maxLimit hardLimit0))

/-- `IsSoftTimeout` (timemanagement.go lines 46-48), on the soft limit
and the elapsed wall-clock time (both in the same duration unit). -/
def isSoftTimeout (softTime elapsed : Int) : Bool :=
  decide (0 < softTime ∧ softTime ≤ elapsed)

/-- The (softTime, hardTime) selection of `NewTimeManager`
(timemanagement.go lines 75-80): a fixed move time gives soft 0 and
hard = moveTime; else the strategy applies when main time is known. -/
def newTimeManagerLimits (strategy : Int → Int → Int → Int × Int)
    (moveTime mainT incT movesToGo : Int) : Int × Int :=
  if 0 < moveTime then (0, moveTime)
  else if 0 < mainT then strategy mainT incT movesToGo
  else (0, 0)

/-- One index step of the tuner's coordinate descent (the body of the
`for weightIndex` loop, tuner lines 153-171), with `computeError`
abstracted as `err` (its float arithmetic is external to the analysed
control flow).  Returns the new weights, steps and best error. -/
def cdIndex (err : List Int → ℚ) (weights steps : List Int) (bestE : ℚ) (j : Nat) :
    List Int × List Int × ℚ :=
  let oldStep := steps.getD j 0
  let oldValue := weights.getD j 0
  let newValue := oldValue + oldStep
  let w1 := weights.set j newValue
  let e := err w1
  if e < bestE then (w1, steps.set j (oldStep * 2), e)
  else (w1.set j oldValue, steps.set j (if 0 < oldStep then -1 else 1), bestE)

/-- One full pass of coordinate descent over all weight indices, in
order. -/
def cdPass (err : List Int → ℚ) (weights steps : List Int) (bestE : ℚ) :
    List Int × List Int × ℚ :=
  (List.range weights.length).foldl (fun acc j => cdIndex err acc.1 acc.2.1 acc.2.2 j)
    (weights, steps, bestE)

/-- The state of the `shouldBreak` closure (tuner lines 182-201). -/
structure BreakSt where
  iteration : Int
  ema : ℚ
  prevErr : ℚ
deriving DecidableEq, Repr

/-- One observation of `shouldBreak`: iteration 0 primes the previous
error, iteration 1 initialises the EMA, later iterations update it and
compare against the stop threshold. -/
def shouldBreakStep (emaPeriod stopErrChange : ℚ) (bs : BreakSt) (err : ℚ) :
    Bool × BreakSt :=
  let it := bs.iteration + 1
  if it = 0 then (false, ⟨it, bs.ema, err⟩)
  else
    let errChange := bs.prevErr - err
    if it = 1 then (false, ⟨it, errChange, err⟩)
    else
      let ema := bs.ema + (errChange - bs.ema) / emaPeriod
      (decide (ema < stopErrChange), ⟨it, ema, err⟩)

/-- The outer loop of `coordinateDescent` (tuner lines 148-175), with
an explicit fuel bound on the number of iterations. -/
def coordinateDescent (err : List Int → ℚ) :
    Nat → List Int → List Int → ℚ → BreakSt → List Int
  | 0, weights, _, _, _ => weights
  | Nat.succ f, weights, steps, bestE, bs =>
    let r := shouldBreakStep 3 (4 / 100000 : ℚ) bs bestE
    if r.1 = true then weights
    else
      let p := cdPass err weights steps bestE
      coordinateDescent err f p.1 p.2.1 p.2.2 r.2

/-- Claim-side reading of "at most one knight or bishop in total": the
union bitboard has at most one set bit, i.e. is zero or a power of
two. -/
def atMostOneBit (b : Nat) : Prop := b = 0 ∨ ∃ k, b = 2 ^ k

/-- Claim-side reading of insufficient material: no pawns, rooks or
queens, and at most one minor piece in total. -/
def insuffMaterial (p : Position) : Prop :=
  (p.pawns ||| p.rooks ||| p.queens) = 0 ∧ atMostOneBit (p.knights ||| p.bishops)

/-- A ply at which the backward repetition scan stops: a rule-50 reset
or a null move. -/
def stackStop (q : Position) : Prop := q.rule50 = 0 ∨ q.lastMove = MoveEmpty

/-- A default position used only as the out-of-range value of `getD`. -/
def posDefault : Position := ⟨false, 0, 0, MoveEmpty, 0, 0, 0, 0, 0⟩

/-- Claim-side reading of repetition in the search stack: the key occurs
at some earlier ply, with no stop ply strictly between it and the
current node (`below` lists the ancestors most recent first). -/
def repInStack (below : List Position) (key : Nat) : Prop :=
  ∃ i, i < below.length ∧ (below.getD i posDefault).key = key ∧
    ∀ j, j < i → ¬ stackStop (below.getD j posDefault)

/-- The backward scan runs through the whole stack: no key match and no
stop ply anywhere. -/
def scanExhausts (below : List Position) (key : Nat) : Prop :=
  ∀ j, j < below.length →
    (below.getD j posDefault).key ≠ key ∧ ¬ stackStop (below.getD j posDefault)

/-- A recorded transposition-table store, used to observe the arguments
`alphaBeta` passes to `transTable.Update`. -/
structure TTRec where
  pos : Position
  depth : Int
  score : Int
  bound : Nat
  move : Move
deriving DecidableEq, Repr

/-- A concrete trivial environment over the unit store: every position
is in check and has no legal moves, the done channel never fires. -/
def envUnit : SearchEnv Unit :=
  { maxHeight := 3
    valueWin := 1000
    valueInfinity := 30000
    pawnValue := 100
    sortTableKeyImportant := 0
    isDone := fun _ => false
    isCheck := fun _ => true
    makeMove := fun _ _ => none
    makeNullMove := fun p => p
    generateMoves := fun _ => []
    generateCaptures := fun _ _ => []
    evaluate := fun _ => 5
    seeGEZero := fun _ _ => true
    isCaptureOrPromotion := fun _ => false
    isPawnAdvance := fun _ _ => false
    isPawnPush7th := fun _ _ => false
    isDangerCapture := fun _ _ => false
    isLateEndgame := fun _ _ => false
    moveValue := fun _ => 0
    lateMoveReduction := fun _ _ => 0
    valueToTT := fun v _ => v
    valueFromTT := fun v _ => v
    historyKeys := fun _ => 0
    ttRead := fun _ _ => none
    ttUpdate := fun s _ _ _ _ _ => s
    noteKey := fun _ _ _ _ _ => 0
    noteKeyQS := fun _ _ _ => 0
    sortUpdate := fun s _ _ _ _ _ => s
    sortMoves := fun l => l
    searchRoot := fun ml d => (0, ⟨d, 0, ml⟩, ml)
    isDoneAt := fun _ => false
    isSoftAt := fun _ => false }

/-- A position with a pawn (not insufficient material), rule-50 at 3,
zobrist key 7. -/
def pX : Position := ⟨true, 7, 3, MoveEmpty, 1, 0, 0, 0, 0⟩

/-- A bare-kings position: insufficient material, so `isDraw` holds. -/
def pDraw : Position := ⟨true, 7, 3, MoveEmpty, 0, 0, 0, 0, 0⟩

/-- An ancestor ply with a different key and a rule-50 reset (the
backward scan stops here). -/
def qC2 : Position := ⟨true, 5, 0, MoveEmpty, 1, 0, 0, 0, 0⟩

/-- `envUnit` with two pre-search history occurrences of key 7. -/
def envC2 : SearchEnv Unit :=
  { envUnit with historyKeys := fun k => if k = 7 then 2 else 0 }

/-- A concrete environment whose store records every transposition-table
update. -/
def envRec : SearchEnv (List TTRec) :=
  { maxHeight := 3
    valueWin := 1000
    valueInfinity := 30000
    pawnValue := 100
    sortTableKeyImportant := 0
    isDone := fun _ => false
    isCheck := fun _ => true
    makeMove := fun _ _ => none
    makeNullMove := fun p => p
    generateMoves := fun _ => []
    generateCaptures := fun _ _ => []
    evaluate := fun _ => 5
    seeGEZero := fun _ _ => true
    isCaptureOrPromotion := fun _ => false
    isPawnAdvance := fun _ _ => false
    isPawnPush7th := fun _ _ => false
    isDangerCapture := fun _ _ => false
    isLateEndgame := fun _ _ => false
    moveValue := fun _ => 0
    lateMoveReduction := fun _ _ => 0
    valueToTT := fun v _ => v
    valueFromTT := fun v _ => v
    historyKeys := fun _ => 0
    ttRead := fun _ _ => none
    ttUpdate := fun s p d sc ty mv => TTRec.mk p d sc ty mv :: s
    noteKey := fun _ _ _ _ _ => 0
    noteKeyQS := fun _ _ _ => 0
    sortUpdate := fun s _ _ _ _ _ => s
    sortMoves := fun l => l
    searchRoot := fun ml d => (0, ⟨d, 0, ml⟩, ml)
    isDoneAt := fun _ => false
    isSoftAt := fun _ => false }

/-- A concrete nonempty move. -/
def mX : Move := ⟨12, 0, 1⟩

/-- `envUnit` with no checks anywhere: quiet positions for
quiescence. -/
def envQ : SearchEnv Unit := { envUnit with isCheck := fun _ => false }

/-- A concrete error function for the tuner: the first weight, as a
rational. -/
def errW : List Int → ℚ := fun l => ((l.getD 0 0 : Int) : ℚ)

/-- `l.set j (l.getD j 0) = l` for an in-range index. -/
theorem list_set_getD_self : ∀ (l : List Int) (j : Nat), j < l.length → l.set j (l.getD j 0) = l := by
  intro l
  induction l with
  | nil => intro j h; simp at h
  | cons a t ih =>
    intro j h
    cases j with
    | zero => simp
    | succ j' =>
      simp only [List.getD_cons_succ, List.set_cons_succ, List.cons.injEq, true_and]
      exact ih j' (by simpa using h)

/-- C4: `newDepth` returns `d` or `d-1`, never more than `d`, and
returns `d` exactly for the recapture, check and pawn-push-to-7th
extensions described by the claim. -/
theorem claimC4 (S : Type) (env : SearchEnv S) (p child : Position) (d : Int) :
    (newDepthGo env p child d = d ∨ newDepthGo env p child d = d - 1) ∧
    newDepthGo env p child d ≤ d ∧
    (newDepthGo env p child d = d ↔
      ((p.lastMove.toSq = child.lastMove.toSq ∧ piecePawn < child.lastMove.captured ∧
        piecePawn < p.lastMove.captured ∧ env.seeGEZero p child.lastMove = true) ∨
       (env.isCheck child = true ∧ (d ≤ 1 ∨ env.seeGEZero p child.lastMove = true)) ∨
       (env.isPawnPush7th child.lastMove p.whiteMove = true ∧
        env.seeGEZero p child.lastMove = true))) := by
  have hme : piecePawn < p.lastMove.captured → p.lastMove ≠ MoveEmpty := by
    intro h heq
    rw [heq] at h
    simp [MoveEmpty, piecePawn] at h
  simp only [newDepthGo]
  split_ifs with h1 h2 h3
  · exact ⟨Or.inl rfl, le_refl d,
      ⟨fun _ => Or.inl ⟨h1.2.1, h1.2.2.1, h1.2.2.2.1, h1.2.2.2.2⟩, fun _ => rfl⟩⟩
  · exact ⟨Or.inl rfl, le_refl d, ⟨fun _ => Or.inr (Or.inl h2), fun _ => rfl⟩⟩
  · exact ⟨Or.inl rfl, le_refl d, ⟨fun _ => Or.inr (Or.inr h3), fun _ => rfl⟩⟩
  · refine ⟨Or.inr rfl, by omega, ⟨fun hc => absurd hc (by omega), fun hc => ?_⟩⟩
    rcases hc with ⟨ha, hb, hcc, hd2⟩ | hB | hC
    · exact absurd ⟨hme hcc, ha, hb, hcc, hd2⟩ h1
    · exact absurd hB h2
    · exact absurd hC h3

/-- C8 counterexample: with a fixed move time the limits are soft 0,
hard = moveTime, and with elapsed 5 ≥ soft 0 the code still reports no
soft timeout, contradicting the claimed "true iff elapsed ≥ soft". -/
theorem claimC8_cex :
    isSoftTimeout 0 5 = false ∧ (0 : Int) ≤ 5 ∧
    newTimeManagerLimits timeControlSmart 100 0 0 0 = (0, 100) := by
  refine ⟨by decide, by norm_num, ?_⟩
  unfold newTimeManagerLimits
  norm_num

/-- C8 (amended): `IsSoftTimeout` returns true iff the soft limit is
positive and elapsed ≥ soft; a fixed move time yields limits (0,
moveTime), so it then never reports a soft timeout. -/
theorem claimC8 :
    (∀ softTime elapsed : Int,
      isSoftTimeout softTime elapsed = true ↔ 0 < softTime ∧ softTime ≤ elapsed) ∧
    (∀ (strategy : Int → Int → Int → Int × Int) (moveTime mainT incT mtg : Int),
      0 < moveTime →
      newTimeManagerLimits strategy moveTime mainT incT mtg = (0, moveTime)) := by
  constructor
  · intro s e
    simp [isSoftTimeout]
  · intro strat mt mn ic mg h
    unfold newTimeManagerLimits
    rw [if_pos h]

theorem claimC8_witness :
    (0 : Int) < 250 ∧ newTimeManagerLimits timeControlSmart 250 60000 1000 40 = (0, 250) :=
  ⟨by norm_num, claimC8.2 timeControlSmart 250 60000 1000 40 (by norm_num)⟩

/-- C9: one coordinate-descent index step: add the step; if the error
improves, keep the change and double the step, else revert the weight
and reset the step to -1 if it was positive, +1 if negative. -/
theorem claimC9 (err : List Int → ℚ) (weights steps : List Int) (bestE : ℚ) (j : Nat)
    (hw : j < weights.length) :
    (err (weights.set j (weights.getD j 0 + steps.getD j 0)) < bestE →
      cdIndex err weights steps bestE j =
        (weights.set j (weights.getD j 0 + steps.getD j 0),
         steps.set j (steps.getD j 0 * 2),
         err (weights.set j (weights.getD j 0 + steps.getD j 0)))) ∧
    (¬ err (weights.set j (weights.getD j 0 + steps.getD j 0)) < bestE →
      cdIndex err weights steps bestE j =
        (weights, steps.set j (if 0 < steps.getD j 0 then -1 else 1), bestE)) ∧
    (0 < steps.getD j 0 → (if 0 < steps.getD j 0 then (-1 : Int) else 1) = -1) ∧
    (steps.getD j 0 < 0 → (if 0 < steps.getD j 0 then (-1 : Int) else 1) = 1) := by
  refine ⟨?_, ?_, ?_, ?_⟩
  · intro h
    unfold cdIndex
    rw [if_pos h]
  · intro h
    unfold cdIndex
    rw [if_neg h]
    have : (weights.set j (weights.getD j 0 + steps.getD j 0)).set j (weights.getD j 0) =
        weights := by
      rw [List.set_set]
      exact list_set_getD_self weights j hw
    rw [this]
  · intro h
    rw [if_pos h]
  · intro h
    rw [if_neg (by omega)]

theorem claimC9_witness :
    (0 : Nat) < 1 ∧
      cdIndex errW [5] [1] 10 0 = ([6], [2], (6 : ℚ)) := by
  refine ⟨by decide, ?_⟩
  have h := (claimC9 errW [5] [1] 10 0 (by decide)).1
  simpa [errW] using h (by norm_num [errW])

/-- C6: an empty root move list returns immediately with the prior main
line and zero iterations; a single root move is installed as the main
line and the search returns without any iterative-deepening
iteration. -/
theorem claimC6 (S : Type) (env : SearchEnv S) (prior : MainLine) (p : Position) (s : S) :
    (genRootMoves env s p = [] → iterativeDeepening env prior p s = (prior, 0)) ∧
    (∀ m, genRootMoves env s p = [m] →
      iterativeDeepening env prior p s = (MainLine.mk 0 0 [m], 0)) := by
  constructor
  · intro h
    unfold iterativeDeepening
    rw [h]
  · intro m h
    unfold iterativeDeepening
    rw [h]
    rfl

theorem claimC6_witness :
    genRootMoves envUnit () pX = [] ∧
      iterativeDeepening envUnit (MainLine.mk 9 9 []) pX () = (MainLine.mk 9 9 [], 0) :=
  ⟨rfl, (claimC6 Unit envUnit (MainLine.mk 9 9 []) pX ()).1 rfl⟩

/-- C3: whenever the post-loop transposition-table store of `alphaBeta`
runs with at least one searched legal move, the stored entry carries
score `valueToTT(alpha, height)` at the current depth with `bestMove`
as the move, the LOWER bit set iff `bestMove` is non-empty, and the
UPPER bit set iff `alpha < beta`. -/
theorem claimC3 (env : SearchEnv (List TTRec)) (pos : Position) (depth : Int) (height : Nat)
    (isCheck : Bool) (beta : Int) (ls : ABLoop (List TTRec))
    (henv : env.ttUpdate = fun s p d sc ty mv => TTRec.mk p d sc ty mv :: s)
    (hmc : 0 < ls.moveCount) :
    ∃ entry rest,
      (alphaBetaFinish env pos depth height isCheck beta ls).2.s = entry :: rest ∧
      (alphaBetaFinish env pos depth height isCheck beta ls).1 = ls.alpha ∧
      entry.pos = pos ∧ entry.depth = depth ∧
      entry.score = env.valueToTT ls.alpha height ∧
      entry.move = ls.bestMove ∧
      (entry.bound &&& boundLower ≠ 0 ↔ ls.bestMove ≠ MoveEmpty) ∧
      (entry.bound &&& boundUpper ≠ 0 ↔ ls.alpha < beta) := by
  unfold alphaBetaFinish
  rw [if_neg (by omega : ¬ ls.moveCount = 0), henv]
  by_cases hb : ls.bestMove = MoveEmpty
  · have e1 : (if ls.bestMove ≠ MoveEmpty then boundLower else 0) = 0 := by
      rw [if_neg]
      simp [hb]
    by_cases ha : ls.alpha < beta
    · have e2 : (if ls.alpha < beta then boundUpper else 0) = boundUpper := if_pos ha
      rw [e1, e2]
      refine ⟨_, _, rfl, rfl, rfl, rfl, rfl, rfl, ?_, ?_⟩
      · exact iff_of_false (by dsimp only; decide) (by simp [hb])
      · exact iff_of_true (by dsimp only; decide) ha
    · have e2 : (if ls.alpha < beta then boundUpper else 0) = 0 := if_neg ha
      rw [e1, e2]
      refine ⟨_, _, rfl, rfl, rfl, rfl, rfl, rfl, ?_, ?_⟩
      · exact iff_of_false (by dsimp only; decide) (by simp [hb])
      · exact iff_of_false (by dsimp only; decide) ha
  · have e1 : (if ls.bestMove ≠ MoveEmpty then boundLower else 0) = boundLower := if_pos hb
    by_cases ha : ls.alpha < beta
    · have e2 : (if ls.alpha < beta then boundUpper else 0) = boundUpper := if_pos ha
      rw [e1, e2]
      refine ⟨_, _, rfl, rfl, rfl, rfl, rfl, rfl, ?_, ?_⟩
      · exact iff_of_true (by dsimp only; decide) hb
      · exact iff_of_true (by dsimp only; decide) ha
    · have e2 : (if ls.alpha < beta then boundUpper else 0) = 0 := if_neg ha
      rw [e1, e2]
      refine ⟨_, _, rfl, rfl, rfl, rfl, rfl, rfl, ?_, ?_⟩
      · exact iff_of_true (by dsimp only; decide) hb
      · exact iff_of_false (by dsimp only; decide) ha

theorem claimC3_witness :
    ∃ entry rest,
      (alphaBetaFinish envRec pX 2 0 false 10 (ABLoop.mk 7 1 mX 0 [] ⟨0, []⟩)).2.s =
        entry :: rest ∧
      (alphaBetaFinish envRec pX 2 0 false 10 (ABLoop.mk 7 1 mX 0 [] ⟨0, []⟩)).1 = 7 ∧
      entry.pos = pX ∧ entry.depth = 2 ∧
      entry.score = envRec.valueToTT 7 0 ∧
      entry.move = mX ∧
      (entry.bound &&& boundLower ≠ 0 ↔ mX ≠ MoveEmpty) ∧
      (entry.bound &&& boundUpper ≠ 0 ↔ (7 : Int) < 10) :=
  claimC3 envRec pX 2 0 false 10 (ABLoop.mk 7 1 mX 0 [] ⟨0, []⟩) rfl (by decide)

/-- The safe-moves denominator is positive for a defaulted
moves-to-go in [1, 50]. -/
theorem safeMoves_pos (m : Int) (h1 : 1 ≤ m) (h50 : m ≤ 50) :
    (0 : ℚ) < (m : ℚ) * (2 - (m : ℚ) / 50) := by
  have hm0 : (0 : ℚ) < (m : ℚ) := by exact_mod_cast lt_of_lt_of_le Int.zero_lt_one h1
  have hm50 : (m : ℚ) ≤ 50 := by exact_mod_cast h50
  have hdiv : (m : ℚ) / 50 ≤ 1 := by
    rw [div_le_one (by norm_num : (0 : ℚ) < 50)]
    exact hm50
  have : (1 : ℚ) ≤ 2 - (m : ℚ) / 50 := by linarith
  exact mul_pos hm0 (by linarith)

/-- C7: `timeControlSmart` computes the claimed defaulting of
moves-to-go, the claimed `maxLimit` caps, the soft limit
`main/safeMoves + inc` with `safeMoves = movesToGo·(2 − movesToGo/50)`,
the hard limit `4·soft`, and clamps both to `[1, maxLimit]` (i.e.
applies `max 1 (min maxLimit ·)`).  The float64 arithmetic of the code
is modelled by exact rationals, with `int(·)` as truncation. -/
theorem claimC7 (main inc moves : Int) (h1 : 0 < main) (_h2 : 0 ≤ inc) (_h3 : 0 ≤ moves) :
    timeControlSmart main inc moves =
      (let m : Int := if moves = 0 ∨ 50 < moves then 50 else moves
       let maxL : Int := if 1 < m then min (main - 300) (main / 2 + inc) else main - 300
       let soft : Int := ⌊(main : ℚ) / ((m : ℚ) * (2 - (m : ℚ) / 50))⌋ + inc
       (max 1 (min maxL soft), max 1 (min maxL (4 * soft)))) := by
  simp only [timeControlSmart]
  have hm1 : 1 ≤ (if moves = 0 ∨ 50 < moves then (50 : Int) else moves) := by
    split_ifs with h
    · omega
    · omega
  have hm50 : (if moves = 0 ∨ 50 < moves then (50 : Int) else moves) ≤ 50 := by
    split_ifs with h
    · omega
    · omega
  set m : Int := if moves = 0 ∨ 50 < moves then (50 : Int) else moves with hmdef
  have hsafe := safeMoves_pos m hm1 hm50
  have hquot : 0 ≤ (main : ℚ) / ((m : ℚ) * (2 - (m : ℚ) / 50)) :=
    le_of_lt (div_pos (by exact_mod_cast h1) hsafe)
  have htr : truncQ ((main : ℚ) / ((m : ℚ) * (2 - (m : ℚ) / 50))) =
      ⌊(main : ℚ) / ((m : ℚ) * (2 - (m : ℚ) / 50))⌋ := by
    unfold truncQ
    rw [if_pos hquot]
  rw [show ((50 : Int) : ℚ) = (50 : ℚ) by norm_num]
  rw [htr]
  have h4 : (⌊(main : ℚ) / ((m : ℚ) * (2 - (m : ℚ) / 50))⌋ + inc) * 4 =
      4 * (⌊(main : ℚ) / ((m : ℚ) * (2 - (m : ℚ) / 50))⌋ + inc) := by ring
  rw [h4]

theorem claimC7_witness :
    (0 : Int) < 60000 ∧ (0 : Int) ≤ 1000 ∧ (0 : Int) ≤ 0 ∧
      timeControlSmart 60000 1000 0 =
        (let m : Int := if (0 : Int) = 0 ∨ 50 < (0 : Int) then 50 else 0
         let maxL : Int := if 1 < m then min (60000 - 300) (60000 / 2 + 1000) else 60000 - 300
         let soft : Int := ⌊(60000 : ℚ) / ((m : ℚ) * (2 - (m : ℚ) / 50))⌋ + 1000
         (max 1 (min maxL soft), max 1 (min maxL (4 * soft)))) :=
  ⟨by norm_num, by norm_num, by norm_num,
    claimC7 60000 1000 0 (by norm_num) (by norm_num) (by norm_num)⟩

/-- A conjunction-free characterisation of `&&& = 0`. -/
theorem land_eq_zero_iff (a b : Nat) :
    a &&& b = 0 ↔ ∀ i, a.testBit i = false ∨ b.testBit i = false := by
  constructor
  · intro h i
    have ht := Nat.testBit_land a b i
    rw [h, Nat.zero_testBit] at ht
    cases hA : a.testBit i
    · exact Or.inl rfl
    · cases hB : b.testBit i
      · exact Or.inr rfl
      · rw [hA, hB] at ht
        simp at ht
  · intro h
    apply Nat.eq_of_testBit_eq
    intro i
    rw [Nat.testBit_land, Nat.zero_testBit]
    rcases h i with h' | h' <;> simp [h']

/-- For even numbers the clear-lowest-bit trick halves. -/
theorem land_pred_even (m : Nat) (hm : 1 ≤ m) :
    (2 * m) &&& (2 * m - 1) = 2 * (m &&& (m - 1)) := by
  apply Nat.eq_of_testBit_eq
  intro i
  cases i with
  | zero =>
    simp [Nat.testBit_land, Nat.testBit_zero, Nat.mul_mod_right]
  | succ j =>
    rw [Nat.testBit_land]
    simp only [Nat.testBit_add_one]
    have e1 : 2 * m / 2 = m := by omega
    have e2 : (2 * m - 1) / 2 = m - 1 := by omega
    have e3 : 2 * (m &&& (m - 1)) / 2 = m &&& (m - 1) := by omega
    rw [e1, e2, e3, Nat.testBit_land]

/-- For odd numbers the clear-lowest-bit trick drops the unit bit. -/
theorem land_pred_odd (m : Nat) : (2 * m + 1) &&& (2 * m) = 2 * m := by
  apply Nat.eq_of_testBit_eq
  intro i
  cases i with
  | zero =>
    simp [Nat.testBit_land, Nat.testBit_zero, Nat.mul_mod_right, Nat.mul_add_mod]
  | succ j =>
    rw [Nat.testBit_land]
    simp only [Nat.testBit_add_one]
    have e1 : (2 * m + 1) / 2 = m := by omega
    have e2 : 2 * m / 2 = m := by omega
    rw [e1, e2, Bool.and_self]

/-- `b &&& (b-1) = 0` holds exactly for numbers with at most one set
bit. -/
theorem land_pred_eq_zero_iff (b : Nat) : b &&& (b - 1) = 0 ↔ atMostOneBit b := by
  induction b using Nat.strong_induction_on with
  | _ b ih =>
    rcases Nat.even_or_odd b with ⟨m, hm⟩ | ⟨m, hm⟩
    · have hb : b = 2 * m := by omega
      subst hb
      rcases Nat.eq_zero_or_pos m with hm0 | hm1
      · subst hm0
        simp [atMostOneBit]
      · rw [land_pred_even m hm1]
        have hlt : m < 2 * m := by omega
        constructor
        · intro h
          have h0 : m &&& (m - 1) = 0 := by omega
          rcases (ih m hlt).mp h0 with h' | ⟨k, hk⟩
          · omega
          · exact Or.inr ⟨k + 1, by rw [hk]; ring⟩
        · rintro (h0 | ⟨k, hk⟩)
          · omega
          · cases k with
            | zero => omega
            | succ k' =>
              rw [pow_succ] at hk
              have hmk : m = 2 ^ k' := by omega
              have h0 : m &&& (m - 1) = 0 := (ih m hlt).mpr (Or.inr ⟨k', hmk⟩)
              omega
    · subst hm
      have hpred : 2 * m + 1 - 1 = 2 * m := by omega
      rw [hpred, land_pred_odd]
      constructor
      · intro h
        have hm0 : m = 0 := by omega
        subst hm0
        exact Or.inr ⟨0, by norm_num⟩
      · rintro (h0 | ⟨k, hk⟩)
        · omega
        · cases k with
          | zero => omega
          | succ k' =>
            rw [pow_succ] at hk
            omega

/-- `MoreThanOne` is false exactly on bitboards with at most one set
bit. -/
theorem moreThanOne_false_iff (b : Nat) : MoreThanOne b = false ↔ atMostOneBit b := by
  unfold MoreThanOne
  rw [decide_eq_false_iff_not, not_ne_iff]
  exact land_pred_eq_zero_iff b

/-- The backward scan reports a repetition exactly when the key occurs
at an earlier ply with no stop ply on the way. -/
theorem repScan_some_true_iff (key : Nat) (l : List Position) :
    repScan key l = some true ↔ repInStack l key := by
  induction l with
  | nil =>
    simp only [repScan, repInStack]
    constructor
    · intro h
      cases h
    · rintro ⟨i, hi, -⟩
      simp at hi
  | cons q rest ih =>
    simp only [repScan]
    by_cases hk : q.key = key
    · rw [if_pos hk]
      refine iff_of_true rfl ⟨0, by simp, by simpa using hk, fun j hj => absurd hj (by omega)⟩
    · rw [if_neg hk]
      by_cases hs : q.rule50 = 0 ∨ q.lastMove = MoveEmpty
      · rw [if_pos hs]
        refine iff_of_false (by simp) ?_
        rintro ⟨i, hi, hkey, hnostop⟩
        cases i with
        | zero => exact hk (by simpa using hkey)
        | succ i' => exact (hnostop 0 (by omega)) (by simpa [stackStop] using hs)
      · rw [if_neg hs]
        rw [ih]
        constructor
        · rintro ⟨i, hi, hkey, hns⟩
          refine ⟨i + 1, by simpa using Nat.succ_lt_succ hi, by simpa using hkey, ?_⟩
          intro j hj
          cases j with
          | zero => simpa [stackStop] using hs
          | succ j' => simpa using hns j' (by omega)
        · rintro ⟨i, hi, hkey, hns⟩
          cases i with
          | zero => exact absurd (by simpa using hkey) hk
          | succ i' =>
            refine ⟨i', by simpa using hi, by simpa using hkey, ?_⟩
            intro j hj
            simpa using hns (j + 1) (by omega)

/-- The backward scan exhausts the stack exactly when no earlier ply
matches the key or stops the scan. -/
theorem repScan_none_iff (key : Nat) (l : List Position) :
    repScan key l = none ↔ scanExhausts l key := by
  induction l with
  | nil =>
    simp only [repScan, scanExhausts]
    constructor
    · intro _ j hj
      simp at hj
    · intro _
      trivial
  | cons q rest ih =>
    simp only [repScan]
    by_cases hk : q.key = key
    · rw [if_pos hk]
      refine iff_of_false (by simp) ?_
      intro h
      exact (h 0 (by simp)).1 (by simpa using hk)
    · rw [if_neg hk]
      by_cases hs : q.rule50 = 0 ∨ q.lastMove = MoveEmpty
      · rw [if_pos hs]
        refine iff_of_false (by simp) ?_
        intro h
        exact (h 0 (by simp)).2 (by simpa [stackStop] using hs)
      · rw [if_neg hs]
        rw [ih]
        constructor
        · intro h j hj
          cases j with
          | zero => exact ⟨by simpa using hk, by simpa [stackStop] using hs⟩
          | succ j' =>
            have := h j' (by simpa using hj)
            simpa using this
        · intro h j hj
          have := h (j + 1) (by simpa using Nat.succ_lt_succ hj)
          simpa using this

/-- C2 counterexample: a position whose key has two pre-search history
occurrences (claim condition (d)), none of (a)-(c), yet `isDraw` is
false because the backward scan stops at a rule-50 reset before
consulting the history keys. -/
theorem claimC2_cex :
    isDraw envC2 [qC2] pX = false ∧
    2 ≤ envC2.historyKeys pX.key ∧
    ¬ insuffMaterial pX ∧ ¬ (100 < pX.rule50) ∧ ¬ repInStack [qC2] pX.key := by
  refine ⟨by decide, by decide, ?_, by decide, ?_⟩
  · intro h
    exact absurd h.1 (by decide)
  · rintro ⟨i, hi, hkey, -⟩
    have h0 : i = 0 := by
      simp at hi
      omega
    subst h0
    exact absurd hkey (by decide)

/-- C2 (amended): `isDraw` holds exactly for insufficient material,
rule-50 over 100, a repetition in the search stack, or (only when the
backward scan exhausts the stack without a stop) at least two
occurrences of the key in the pre-search history; and at the top of
`alphaBeta` a detected draw returns `valueDraw` immediately. -/
theorem claimC2 :
    (∀ (S : Type) (env : SearchEnv S) (below : List Position) (p : Position),
      isDraw env below p = true ↔
        (insuffMaterial p ∨ 100 < p.rule50 ∨ repInStack below p.key ∨
          (scanExhausts below p.key ∧ 2 ≤ env.historyKeys p.key))) ∧
    (∀ (S : Type) (env : SearchEnv S) (n : Nat) (below : List Position) (pos : Position)
      (a b d : Int) (st : SState S),
      isDraw env below pos = true →
      alphaBeta env (n + 1) below pos a b d st = Except.ok (valueDraw, st)) := by
  constructor
  · intro S env below p
    unfold isDraw
    split_ifs with hmat hr50 hh
    · exact iff_of_true rfl (Or.inl ⟨hmat.1, (moreThanOne_false_iff _).mp hmat.2⟩)
    · exact iff_of_true rfl (Or.inr (Or.inl hr50))
    · cases hscan : repScan p.key below with
      | none =>
        exact iff_of_true rfl
          (Or.inr (Or.inr (Or.inr ⟨(repScan_none_iff _ _).mp hscan, hh⟩)))
      | some bb =>
        cases bb with
        | false =>
          refine iff_of_false (by simp) ?_
          rintro (hins | hr | hrep | ⟨hexh, -⟩)
          · exact hmat ⟨hins.1, (moreThanOne_false_iff _).mpr hins.2⟩
          · exact hr50 hr
          · rw [(repScan_some_true_iff _ _).mpr hrep] at hscan
            simp at hscan
          · rw [(repScan_none_iff _ _).mpr hexh] at hscan
            simp at hscan
        | true =>
          exact iff_of_true rfl
            (Or.inr (Or.inr (Or.inl ((repScan_some_true_iff _ _).mp hscan))))
    · cases hscan : repScan p.key below with
      | none =>
        refine iff_of_false (by simp) ?_
        rintro (hins | hr | hrep | ⟨-, hhist⟩)
        · exact hmat ⟨hins.1, (moreThanOne_false_iff _).mpr hins.2⟩
        · exact hr50 hr
        · rw [(repScan_some_true_iff _ _).mpr hrep] at hscan
          simp at hscan
        · exact hh hhist
      | some bb =>
        cases bb with
        | false =>
          refine iff_of_false (by simp) ?_
          rintro (hins | hr | hrep | ⟨hexh, -⟩)
          · exact hmat ⟨hins.1, (moreThanOne_false_iff _).mpr hins.2⟩
          · exact hr50 hr
          · rw [(repScan_some_true_iff _ _).mpr hrep] at hscan
            simp at hscan
          · rw [(repScan_none_iff _ _).mpr hexh] at hscan
            simp at hscan
        | true =>
          exact iff_of_true rfl
            (Or.inr (Or.inr (Or.inl ((repScan_some_true_iff _ _).mp hscan))))
  · intro S env n below pos a b d st hd
    simp only [alphaBeta]
    rw [if_pos (Or.inr hd)]

theorem claimC2_witness :
    isDraw envUnit [] pDraw = true ∧
      alphaBeta envUnit 1 [] pDraw 0 1 1 ⟨0, ()⟩ =
        Except.ok (valueDraw, (⟨0, ()⟩ : SState Unit)) :=
  ⟨by decide, claimC2.2 Unit envUnit 0 [] pDraw 0 1 1 ⟨0, ()⟩ (by decide)⟩

/-- If no move is legal, the quiescence loop leaves its accumulators
unchanged. -/
theorem qsLoop_allIllegal (env : SearchEnv S)
    (search : Int → Int → Int → Position → SState S → Except Fault (Int × SState S))
    (pos : Position) (isCheck : Bool) (eval beta qdepth : Int) :
    ∀ (l : List OrderedMove) (alpha : Int) (mc : Nat) (st : SState S),
      (∀ m, env.makeMove pos m = none) →
      qsLoop env search pos isCheck eval beta qdepth l alpha mc st =
        Except.ok (alpha, mc, st) := by
  intro l
  induction l with
  | nil =>
    intro alpha mc st _
    rfl
  | cons om rest ih =>
    intro alpha mc st h
    simp only [qsLoop]
    split_ifs with h1
    · exact ih alpha mc st h
    · rw [h om.move]
      exact ih alpha mc st h

/-- If no move is legal, the main move loop of `alphaBeta` leaves its
accumulators unchanged. -/
theorem abLoop_allIllegal (env : SearchEnv S)
    (search : Int → Int → Int → Position → SState S → Except Fault (Int × SState S))
    (pos : Position) (depth : Int) (isCheck : Bool) (beta : Int) :
    ∀ (n i : Nat) (rem : List OrderedMove) (ls : ABLoop S),
      (∀ m, env.makeMove pos m = none) →
      abLoop env search pos depth isCheck beta n i rem ls = Except.ok ls := by
  intro n
  induction n with
  | zero =>
    intro i rem ls _
    rfl
  | succ n ih =>
    intro i rem ls h
    simp only [abLoop]
    cases hrem : (if i < 4 then moveToTop rem else if i = 4 then env.sortMoves rem else rem) with
    | nil => rfl
    | cons om rest =>
      dsimp only
      rw [h om.move]
      exact ih (i + 1) rest ls h

/-- C1: when the move loop finishes with no legal move played, the code
after the loop returns `lossIn(height)` in check and `valueDraw`
otherwise; `quiescence` in check with no legal move returns
`lossIn(height)`; and a depth-1 `alphaBeta` node whose position has no
legal moves returns `lossIn(height)` in check and `valueDraw`
otherwise. -/
theorem claimC1 :
    (∀ (S : Type) (env : SearchEnv S) (pos : Position) (depth : Int) (height : Nat)
        (isCheck : Bool) (beta : Int) (ls : ABLoop S),
      ls.moveCount = 0 →
      alphaBetaFinish env pos depth height isCheck beta ls =
        (if isCheck = true then lossIn env height else valueDraw, ls.st)) ∧
    (∀ (S : Type) (env : SearchEnv S) (n : Nat) (pos : Position)
        (alpha beta qdepth : Int) (height : Nat) (st st1 : SState S),
      height < env.maxHeight →
      env.isCheck pos = true →
      incNodesStep env st = Except.ok st1 →
      (∀ m, env.makeMove pos m = none) →
      quiescence env (n + 1) pos alpha beta qdepth height st =
        Except.ok (lossIn env height, st1)) ∧
    (∀ (S : Type) (env : SearchEnv S) (n : Nat) (below : List Position) (pos : Position)
        (alpha beta : Int) (st st1 : SState S),
      below.length < env.maxHeight →
      isDraw env below pos = false →
      incNodesStep env st = Except.ok st1 →
      alpha < winIn env (below.length + 1) →
      (env.isCheck pos = true ∨ lossIn env (below.length + 2) < beta) →
      env.ttRead st1.s pos = none →
      (∀ m, env.makeMove pos m = none) →
      alphaBeta env (n + 1) below pos alpha beta 1 st =
        Except.ok
          (if env.isCheck pos = true then lossIn env below.length else valueDraw, st1)) := by
  refine ⟨?_, ?_, ?_⟩
  · intro S env pos depth height isCheck beta ls h
    unfold alphaBetaFinish
    rw [if_pos h]
  · intro S env n pos alpha beta qdepth height st st1 hlen hchk hinc hmk
    simp only [quiescence]
    rw [hinc]
    dsimp only
    rw [if_neg (by omega : ¬ env.maxHeight ≤ height)]
    rw [if_neg (by simp [hchk])]
    rw [qsLoop_allIllegal env _ pos _ _ _ _ _ _ _ _ hmk]
    dsimp only
    rw [if_pos (⟨hchk, rfl⟩ : env.isCheck pos = true ∧ (0 : Nat) = 0)]
  · intro S env n below pos alpha beta st st1 hlen hdraw hinc halpha hdisj htt hmk
    simp only [alphaBeta]
    rw [if_neg (by push_neg; exact ⟨by omega, by simp [hdraw]⟩)]
    rw [if_neg (by norm_num : ¬ (1 : Int) ≤ 0)]
    rw [hinc]
    dsimp only
    rw [if_neg (not_le.mpr halpha)]
    rw [if_neg ?hmate]
    case hmate =>
      rintro ⟨hge, hnc⟩
      rcases hdisj with hc | hlt
      · rw [hc] at hnc
        cases hnc
      · omega
    rw [show ttProbe env st1.s pos 1 alpha beta below.length = Sum.inr MoveEmpty by
      unfold ttProbe; rw [htt]]
    dsimp only
    rw [show nullMovePhase env
        (fun a b d c stx => alphaBeta env n (pos :: below) c a b d stx)
        (fun a b d c stx => quiescence env n c a b d (below.length + 1) stx)
        pos 1 beta (env.isCheck pos) st1 = Except.ok (none, st1) by
      unfold nullMovePhase
      rw [if_neg]
      rintro ⟨h2, -⟩
      omega]
    dsimp only
    rw [show iidPhase env (fun a b d stx => alphaBeta env n below pos a b d stx)
        pos 1 alpha beta MoveEmpty st1 = Except.ok (MoveEmpty, st1) by
      unfold iidPhase
      rw [if_neg]
      rintro ⟨h4, -⟩
      omega]
    dsimp only
    rw [abLoop_allIllegal env _ pos 1 (env.isCheck pos) beta _ 0 _ _ hmk]
    dsimp only
    unfold alphaBetaFinish
    rw [if_pos rfl]

theorem claimC1_witness :
    isDraw envUnit [] pX = false ∧ envUnit.isCheck pX = true ∧
      alphaBeta envUnit 1 [] pX (-5) 5 1 ⟨0, ()⟩ =
        Except.ok
          (if envUnit.isCheck pX = true then lossIn envUnit (List.length ([] : List Position))
           else valueDraw, (⟨1, ()⟩ : SState Unit)) :=
  ⟨by decide, rfl,
    claimC1.2.2 Unit envUnit 0 [] pX (-5) 5 ⟨0, ()⟩ ⟨1, ()⟩ (by decide) (by decide) rfl
      (by decide) (Or.inl rfl) rfl (fun _ => rfl)⟩

/-- The quiescence loop never decreases alpha. -/
theorem qsLoop_alpha_le (env : SearchEnv S)
    (search : Int → Int → Int → Position → SState S → Except Fault (Int × SState S))
    (pos : Position) (isCheck : Bool) (eval beta qdepth : Int) :
    ∀ (l : List OrderedMove) (alpha : Int) (mc : Nat) (st : SState S)
      (out : Int × Nat × SState S),
      qsLoop env search pos isCheck eval beta qdepth l alpha mc st = Except.ok out →
      alpha ≤ out.1 := by
  intro l
  induction l with
  | nil =>
    intro alpha mc st out h
    cases h
    exact le_refl alpha
  | cons om rest ih =>
    intro alpha mc st out h
    simp only [qsLoop] at h
    split_ifs at h with h1
    · exact ih _ _ _ _ h
    · cases hmm : env.makeMove pos om.move with
      | none =>
        rw [hmm] at h
        exact ih _ _ _ _ h
      | some child =>
        rw [hmm] at h
        dsimp only at h
        split_ifs at h with h2
        · exact ih _ _ _ _ h
        · cases hs : search (-beta) (-alpha) (qdepth - 1) child st with
          | error f =>
            rw [hs] at h
            exact Except.noConfusion h
          | ok r =>
            rw [hs] at h
            obtain ⟨sv, st2⟩ := r
            dsimp only at h
            split_ifs at h with hlt hge
            · cases h
              exact le_of_lt hlt
            · exact le_trans (le_of_lt hlt) (ih _ _ _ _ h)
            · exact ih _ _ _ _ h

/-- C10: a quiescence call on a position not in check, below the height
limit, returns a score at least the static evaluation of the
position. -/
theorem claimC10 (S : Type) (env : SearchEnv S) (fuel : Nat) (pos : Position)
    (alpha beta qdepth : Int) (height : Nat) (st : SState S) (sc : Int) (st' : SState S)
    (hchk : env.isCheck pos = false) (hlen : height < env.maxHeight)
    (h : quiescence env fuel pos alpha beta qdepth height st = Except.ok (sc, st')) :
    env.evaluate pos ≤ sc := by
  cases fuel with
  | zero => exact Except.noConfusion h
  | succ n =>
    simp only [quiescence] at h
    cases hinc : incNodesStep env st with
    | error f =>
      rw [hinc] at h
      exact Except.noConfusion h
    | ok st1 =>
      rw [hinc] at h
      dsimp only at h
      rw [if_neg (by omega : ¬ env.maxHeight ≤ height)] at h
      rw [if_pos hchk] at h
      have halpha1 : env.evaluate pos ≤
          (if env.isCheck pos = false ∧ alpha < env.evaluate pos then env.evaluate pos
           else alpha) := by
        split_ifs with hgt
        · exact le_refl _
        · have hnl : ¬ alpha < env.evaluate pos := fun hlt => hgt ⟨hchk, hlt⟩
          omega
      set A := (if env.isCheck pos = false ∧ alpha < env.evaluate pos then env.evaluate pos
                else alpha) with hA
      split_ifs at h with hsp hml
      · simp only [Except.ok.injEq, Prod.mk.injEq] at h
        exact h.1 ▸ halpha1
      · exact absurd hml (by simp [hchk])
      · split at h
        · exact Except.noConfusion h
        · rename_i alphaF mc st2 heq
          rw [if_neg (by simp [hchk] : ¬ (env.isCheck pos = true ∧ mc = 0))] at h
          simp only [Except.ok.injEq, Prod.mk.injEq] at h
          have hle := qsLoop_alpha_le env _ pos _ _ _ _ _ _ _ _ _ heq
          exact le_trans halpha1 (h.1 ▸ hle)

theorem claimC10_witness :
    envQ.isCheck pX = false ∧
      quiescence envQ 1 pX 0 10 1 0 ⟨0, ()⟩ = Except.ok (5, (⟨1, ()⟩ : SState Unit)) ∧
      envQ.evaluate pX ≤ 5 :=
  ⟨rfl, by rfl,
    claimC10 Unit envQ 1 pX 0 10 1 0 ⟨0, ()⟩ 5 ⟨1, ()⟩ rfl (by decide) (by rfl)⟩

/-- Second components of equal ok-wrapped pairs agree. -/
theorem exPair {ε α β : Type} {x : α × β} {r : α} {s : β}
    (h : (Except.ok x : Except ε (α × β)) = Except.ok (r, s)) : x.2 = s := by
  injection h with h1
  rw [h1]

/-- A successful `incNodes` increments the node counter by one and
leaves the store unchanged. -/
theorem incNodes_ok_eq (env : SearchEnv S) (st st1 : SState S)
    (h : incNodesStep env st = Except.ok st1) : st1 = ⟨st.nodes + 1, st.s⟩ := by
  simp only [incNodesStep] at h
  split_ifs at h with hc
  simp only [Except.ok.injEq] at h
  exact h.symm

/-- `incNodes` raises the timeout signal exactly when the incremented
counter is a multiple of 256 and the done channel has fired. -/
theorem incNodes_error_iff (env : SearchEnv S) (st : SState S) :
    incNodesStep env st = Except.error Fault.timeout ↔
      (st.nodes + 1) % 256 = 0 ∧ env.isDone (st.nodes + 1) = true := by
  have h255 : st.nodes + 1 &&& 255 = (st.nodes + 1) % 256 := by
    have hh := Nat.and_pow_two_sub_one_eq_mod (st.nodes + 1) 8
    norm_num at hh
    exact hh
  simp only [incNodesStep]
  split_ifs with hc
  · exact iff_of_true rfl ⟨h255 ▸ hc.1, hc.2⟩
  · refine iff_of_false (by simp) ?_
    rintro ⟨hm, hd⟩
    exact hc ⟨by rw [h255]; exact hm, hd⟩

/-- The quiescence loop never decreases the node counter, given that
the child search does not. -/
theorem qsLoop_nodes_le (env : SearchEnv S)
    (search : Int → Int → Int → Position → SState S → Except Fault (Int × SState S))
    (pos : Position) (isCheck : Bool) (eval beta qdepth : Int)
    (hs : ∀ a b d c stx r sty,
      search a b d c stx = Except.ok (r, sty) → SState.nodes stx ≤ SState.nodes sty) :
    ∀ (l : List OrderedMove) (alpha : Int) (mc : Nat) (st : SState S)
      (out : Int × Nat × SState S),
      qsLoop env search pos isCheck eval beta qdepth l alpha mc st = Except.ok out →
      st.nodes ≤ out.2.2.nodes := by
  intro l
  induction l with
  | nil =>
    intro alpha mc st out h
    cases h
    exact le_refl _
  | cons om rest ih =>
    intro alpha mc st out h
    simp only [qsLoop] at h
    split_ifs at h with h1
    · exact ih _ _ _ _ h
    · cases hmm : env.makeMove pos om.move with
      | none =>
        rw [hmm] at h
        exact ih _ _ _ _ h
      | some child =>
        rw [hmm] at h
        dsimp only at h
        split_ifs at h with h2
        · exact ih _ _ _ _ h
        · cases hsr : search (-beta) (-alpha) (qdepth - 1) child st with
          | error f =>
            rw [hsr] at h
            exact Except.noConfusion h
          | ok rr =>
            rw [hsr] at h
            obtain ⟨sv, st2⟩ := rr
            dsimp only at h
            have hst : st.nodes ≤ st2.nodes := hs _ _ _ _ _ _ _ hsr
            split_ifs at h with hlt hge
            · cases h
              exact hst
            · exact le_trans hst (ih _ _ _ _ h)
            · exact le_trans hst (ih _ _ _ _ h)

/-- Every successful `quiescence` call increments the node counter at
least once (the increment happens on entry). -/
theorem quiescence_nodes (env : SearchEnv S) :
    ∀ (fuel : Nat) (pos : Position) (a b d : Int) (hh : Nat) (st : SState S)
      (r : Int) (st' : SState S),
      quiescence env fuel pos a b d hh st = Except.ok (r, st') →
      st.nodes + 1 ≤ st'.nodes := by
  intro fuel
  induction fuel with
  | zero =>
    intro pos a b d hh st r st' h
    exact Except.noConfusion h
  | succ n ih =>
    intro pos a b d hh st r st' h
    simp only [quiescence] at h
    cases hinc : incNodesStep env st with
    | error f =>
      rw [hinc] at h
      exact Except.noConfusion h
    | ok st1 =>
      rw [hinc] at h
      dsimp only at h
      have h1 : st1 = ⟨st.nodes + 1, st.s⟩ := incNodes_ok_eq env st st1 hinc
      have hbase : st.nodes + 1 ≤ st1.nodes := by rw [h1]
      split at h
      · rw [← exPair h]
        exact hbase
      · set ev := (if env.isCheck pos = false then env.evaluate pos else 0) with hev
        set A := (if env.isCheck pos = false ∧ a < ev then ev else a) with hA
        split at h
        · rw [← exPair h]
          exact hbase
        · split at h
          · exact Except.noConfusion h
          · rename_i alphaF mc st2 heq
            have hloop : st1.nodes ≤ st2.nodes := by
              have hs : ∀ a' b' d' c stx rr sty,
                  (fun a2 b2 d2 c2 stx2 => quiescence env n c2 a2 b2 d2 (hh + 1) stx2)
                      a' b' d' c stx = Except.ok (rr, sty) →
                    SState.nodes stx ≤ SState.nodes sty := by
                intro a' b' d' c stx rr sty hok
                exact le_trans (Nat.le_succ _) (ih c a' b' d' (hh + 1) stx rr sty hok)
              exact qsLoop_nodes_le env _ pos _ _ _ _ hs _ _ _ _ _ heq
            split at h
            · rw [← exPair h]
              dsimp only
              omega
            · rw [← exPair h]
              dsimp only
              omega

/-- The full-window child search does not decrease the node counter. -/
theorem abFull_nodes_le (env : SearchEnv S)
    (search : Int → Int → Int → Position → SState S → Except Fault (Int × SState S))
    (alphaCur beta nd : Int) (child : Position) (st : SState S)
    (out : Option Int × SState S)
    (hs : ∀ a b d c stx r sty,
      search a b d c stx = Except.ok (r, sty) → SState.nodes stx ≤ SState.nodes sty)
    (h : abFull env search alphaCur beta nd child st = Except.ok out) :
    st.nodes ≤ out.2.nodes := by
  unfold abFull at h
  cases hsr : search (-beta) (-alphaCur) nd child st with
  | error f =>
    rw [hsr] at h
    exact Except.noConfusion h
  | ok rr =>
    rw [hsr] at h
    obtain ⟨sv, st1⟩ := rr
    dsimp only at h
    rw [← exPair h]
    exact hs _ _ _ _ _ _ _ hsr

/-- The reduced-plus-full child search step does not decrease the node
counter. -/
theorem abStep_nodes_le (env : SearchEnv S)
    (search : Int → Int → Int → Position → SState S → Except Fault (Int × SState S))
    (depth alphaCur beta reduction nd : Int) (child : Position) (st : SState S)
    (out : Option Int × SState S)
    (hs : ∀ a b d c stx r sty,
      search a b d c stx = Except.ok (r, sty) → SState.nodes stx ≤ SState.nodes sty)
    (h : abStep env search depth alphaCur beta reduction nd child st = Except.ok out) :
    st.nodes ≤ out.2.nodes := by
  unfold abStep at h
  split_ifs at h with hred
  · cases hsr : search (-(alphaCur + 1)) (-alphaCur) (depth - 1 - reduction) child st with
    | error f =>
      rw [hsr] at h
      exact Except.noConfusion h
    | ok rr =>
      rw [hsr] at h
      obtain ⟨sv, st1⟩ := rr
      dsimp only at h
      split_ifs at h with hle
      · rw [← exPair h]
        exact hs _ _ _ _ _ _ _ hsr
      · exact le_trans (hs _ _ _ _ _ _ _ hsr) (abFull_nodes_le env search _ _ _ _ _ _ hs h)
  · exact abFull_nodes_le env search _ _ _ _ _ _ hs h

/-- The main move loop does not decrease the node counter. -/
theorem abLoop_nodes_le (env : SearchEnv S)
    (search : Int → Int → Int → Position → SState S → Except Fault (Int × SState S))
    (pos : Position) (depth : Int) (isCheck : Bool) (beta : Int)
    (hs : ∀ a b d c stx r sty,
      search a b d c stx = Except.ok (r, sty) → SState.nodes stx ≤ SState.nodes sty) :
    ∀ (n i : Nat) (rem : List OrderedMove) (ls out : ABLoop S),
      abLoop env search pos depth isCheck beta n i rem ls = Except.ok out →
      ls.st.nodes ≤ out.st.nodes := by
  intro n
  induction n with
  | zero =>
    intro i rem ls out h
    cases h
    exact le_refl _
  | succ n ih =>
    intro i rem ls out h
    simp only [abLoop] at h
    cases hrem : (if i < 4 then moveToTop rem else if i = 4 then env.sortMoves rem else rem) with
    | nil =>
      rw [hrem] at h
      dsimp only at h
      cases h
      exact le_refl _
    | cons om rest =>
      rw [hrem] at h
      dsimp only at h
      cases hmm : env.makeMove pos om.move with
      | none =>
        rw [hmm] at h
        exact ih _ _ _ _ h
      | some child =>
        rw [hmm] at h
        dsimp only at h
        set G := (env.isCaptureOrPromotion om.move = false ∧ 1 < ls.moveCount + 1 ∧
          isCheck = false ∧ env.isCheck child = false ∧ om.key < env.sortTableKeyImportant ∧
          env.isPawnAdvance om.move pos.whiteMove = false ∧ -env.valueWin < ls.alpha) with hG
        set se := (if G ∧ depth ≤ 1 ∧ ls.staticEval = env.valueInfinity then env.evaluate pos
                   else ls.staticEval) with hse
        set red := (if G ∧ 3 ≤ depth
                    then env.lateMoveReduction depth ((ls.moveCount + 1 : Nat) : Int)
                    else 0) with hred
        set q1 := (if env.isCaptureOrPromotion om.move = false then ls.quiets ++ [om.move]
                   else ls.quiets) with hq1
        split at h
        · have hres := ih (i + 1) rest _ _ h
          exact hres
        · split at h
          · have hres := ih (i + 1) rest _ _ h
            exact hres
          · split at h
            · exact Except.noConfusion h
            · rename_i stA heqs
              have hres := ih (i + 1) rest _ _ h
              exact le_trans (abStep_nodes_le env search _ _ _ _ _ _ _ _ hs heqs) hres
            · rename_i score stB heqs
              have hAB : ls.st.nodes ≤ stB.nodes :=
                abStep_nodes_le env search _ _ _ _ _ _ _ _ hs heqs
              split at h
              · split at h
                · cases h
                  exact hAB
                · have hres := ih (i + 1) rest _ _ h
                  exact le_trans hAB hres
              · have hres := ih (i + 1) rest _ _ h
                exact le_trans hAB hres

/-- The null-move phase does not decrease the node counter. -/
theorem nullMovePhase_nodes_le (env : SearchEnv S)
    (search quiesce : Int → Int → Int → Position → SState S → Except Fault (Int × SState S))
    (pos : Position) (depth beta : Int) (isCheck : Bool) (st : SState S)
    (out : Option Int × SState S)
    (hs : ∀ a b d c stx r sty,
      search a b d c stx = Except.ok (r, sty) → SState.nodes stx ≤ SState.nodes sty)
    (hq : ∀ a b d c stx r sty,
      quiesce a b d c stx = Except.ok (r, sty) → SState.nodes stx ≤ SState.nodes sty)
    (h : nullMovePhase env search quiesce pos depth beta isCheck st = Except.ok out) :
    st.nodes ≤ out.2.nodes := by
  simp only [nullMovePhase] at h
  split_ifs at h with hc hnd
  · cases hr : quiesce (-beta) (-(beta - 1)) 1 (env.makeNullMove pos) st with
    | error f =>
      rw [hr] at h
      exact Except.noConfusion h
    | ok rr =>
      rw [hr] at h
      obtain ⟨sv, st1⟩ := rr
      dsimp only at h
      have hle : st.nodes ≤ st1.nodes := hq _ _ _ _ _ _ _ hr
      split_ifs at h with hcut
      · rw [← exPair h]
        exact hle
      · rw [← exPair h]
        exact hle
  · cases hr : search (-beta) (-(beta - 1)) (depth - 4) (env.makeNullMove pos) st with
    | error f =>
      rw [hr] at h
      exact Except.noConfusion h
    | ok rr =>
      rw [hr] at h
      obtain ⟨sv, st1⟩ := rr
      dsimp only at h
      have hle : st.nodes ≤ st1.nodes := hs _ _ _ _ _ _ _ hr
      split_ifs at h with hcut
      · rw [← exPair h]
        exact hle
      · rw [← exPair h]
        exact hle
  · rw [← exPair h]

/-- The internal-iterative-deepening phase does not decrease the node
counter. -/
theorem iidPhase_nodes_le (env : SearchEnv S)
    (search : Int → Int → Int → SState S → Except Fault (Int × SState S))
    (pos : Position) (depth alpha beta : Int) (hashMove : Move) (st : SState S)
    (out : Move × SState S)
    (hs : ∀ a b d stx r sty,
      search a b d stx = Except.ok (r, sty) → SState.nodes stx ≤ SState.nodes sty)
    (h : iidPhase env search pos depth alpha beta hashMove st = Except.ok out) :
    st.nodes ≤ out.2.nodes := by
  unfold iidPhase at h
  split_ifs at h with hc
  · cases hr : search alpha beta (depth - 2) st with
    | error f =>
      rw [hr] at h
      exact Except.noConfusion h
    | ok rr =>
      rw [hr] at h
      obtain ⟨sv, st1⟩ := rr
      dsimp only at h
      have hle : st.nodes ≤ st1.nodes := hs _ _ _ _ _ _ hr
      cases htr : env.ttRead st1.s pos with
      | some e =>
        rw [htr] at h
        rw [← exPair h]
        exact hle
      | none =>
        rw [htr] at h
        rw [← exPair h]
        exact hle
  · rw [← exPair h]

/-- The post-loop code preserves the node counter. -/
theorem alphaBetaFinish_nodes (env : SearchEnv S) (pos : Position) (depth : Int)
    (height : Nat) (isCheck : Bool) (beta : Int) (ls : ABLoop S) :
    (alphaBetaFinish env pos depth height isCheck beta ls).2.nodes = ls.st.nodes := by
  unfold alphaBetaFinish
  split_ifs <;> rfl

/-- `alphaBeta` never decreases the node counter, and increments it at
least once whenever the node passes the height/draw and depth > 0
checks. -/
theorem alphaBeta_nodes_both (env : SearchEnv S) :
    ∀ (fuel : Nat) (below : List Position) (pos : Position) (a b d : Int)
      (st : SState S) (r : Int) (st' : SState S),
      alphaBeta env fuel below pos a b d st = Except.ok (r, st') →
      st.nodes ≤ st'.nodes ∧
        (0 < d → below.length < env.maxHeight → isDraw env below pos = false →
          st.nodes + 1 ≤ st'.nodes) := by
  intro fuel
  induction fuel with
  | zero =>
    intro below pos a b d st r st' h
    exact Except.noConfusion h
  | succ n ih =>
    intro below pos a b d st r st' h
    have hsmono : ∀ a' b' d' c stx rr sty,
        (fun a2 b2 d2 c2 stx2 => alphaBeta env n (pos :: below) c2 a2 b2 d2 stx2)
            a' b' d' c stx = Except.ok (rr, sty) →
          SState.nodes stx ≤ SState.nodes sty := by
      intro a' b' d' c stx rr sty hok
      exact (ih (pos :: below) c a' b' d' stx rr sty hok).1
    have hqmono : ∀ a' b' d' c stx rr sty,
        (fun a2 b2 d2 c2 stx2 => quiescence env n c2 a2 b2 d2 (below.length + 1) stx2)
            a' b' d' c stx = Except.ok (rr, sty) →
          SState.nodes stx ≤ SState.nodes sty := by
      intro a' b' d' c stx rr sty hok
      exact le_trans (Nat.le_succ _) (quiescence_nodes env n c a' b' d' _ stx rr sty hok)
    have hiidmono : ∀ a' b' d' stx rr sty,
        (fun a2 b2 d2 stx2 => alphaBeta env n below pos a2 b2 d2 stx2)
            a' b' d' stx = Except.ok (rr, sty) →
          SState.nodes stx ≤ SState.nodes sty := by
      intro a' b' d' stx rr sty hok
      exact (ih below pos a' b' d' stx rr sty hok).1
    simp only [alphaBeta] at h
    split at h
    · rename_i hcond
      rw [← exPair h]
      refine ⟨le_refl _, ?_⟩
      intro hd hlen hdraw
      rcases hcond with hc1 | hc2
      · omega
      · rw [hdraw] at hc2
        cases hc2
    · rename_i hcond
      split at h
      · rename_i hdep
        have := quiescence_nodes env n pos a b 1 below.length st r st' h
        exact ⟨le_trans (Nat.le_succ _) this, fun hd _ _ => absurd hdep (by omega)⟩
      · rename_i hdep
        cases hinc : incNodesStep env st with
        | error f =>
          rw [hinc] at h
          exact Except.noConfusion h
        | ok st1 =>
          rw [hinc] at h
          dsimp only at h
          have h1 : st1 = ⟨st.nodes + 1, st.s⟩ := incNodes_ok_eq env st st1 hinc
          have hchain : st1.nodes ≤ st'.nodes := by
            clear h1
            split at h
            · rw [← exPair h]
            · split at h
              · rw [← exPair h]
              · split at h
                · rw [← exPair h]
                · rename_i hm0 heqtt
                  split at h
                  · exact Except.noConfusion h
                  · rename_i cut st2 heqnull
                    rw [← exPair h]
                    exact nullMovePhase_nodes_le env _ _ pos d b _ st1 _ hsmono hqmono heqnull
                  · rename_i st2 heqnull
                    have hn1 : st1.nodes ≤ st2.nodes :=
                      nullMovePhase_nodes_le env _ _ pos d b _ st1 _ hsmono hqmono heqnull
                    split at h
                    · exact Except.noConfusion h
                    · rename_i hashMove st3 heqiid
                      have hn2 : st2.nodes ≤ st3.nodes :=
                        iidPhase_nodes_le env _ pos d a b hm0 st2 _ hiidmono heqiid
                      split at h
                      · exact Except.noConfusion h
                      · rename_i ls heqloop
                        have hn3 : st3.nodes ≤ ls.st.nodes :=
                          abLoop_nodes_le env _ pos d _ b hsmono _ _ _ _ _ heqloop
                        have hfin := alphaBetaFinish_nodes env pos d below.length
                          (env.isCheck pos) b ls
                        rw [← exPair h, hfin]
                        omega
          have hplus : st.nodes + 1 ≤ st'.nodes := by
            rw [h1] at hchain
            exact hchain
          exact ⟨le_trans (Nat.le_succ _) hplus, fun _ _ _ => hplus⟩

/-- C5 counterexample: an `alphaBeta` call that enters on a drawn
position completes with the node counter unchanged at 0, so the counter
is not incremented on entry to every `alphaBeta` node. -/
theorem claimC5_cex :
    alphaBeta envUnit 1 [] pDraw 2 9 1 ⟨0, ()⟩ =
        Except.ok (valueDraw, (⟨0, ()⟩ : SState Unit)) ∧
      (⟨0, ()⟩ : SState Unit).nodes = 0 := ⟨by rfl, rfl⟩

/-- C5 (amended): the node counter is incremented by every executed
`incNodes` — on entry to every quiescence node, and in every
`alphaBeta` node that passes the height/draw and depth > 0 checks
(nodes returning at those checks do not count); cancellation is polled
exactly when the incremented counter is a multiple of 256; on observing
cancellation the timeout signal propagates out of the search frames;
and the recovery handler swallows exactly the `searchTimeout` signal
and re-propagates every other non-nil failure. -/
theorem claimC5 :
    (∀ (S : Type) (env : SearchEnv S) (st : SState S),
      (incNodesStep env st = Except.error Fault.timeout ↔
        (st.nodes + 1) % 256 = 0 ∧ env.isDone (st.nodes + 1) = true) ∧
      ∀ st1, incNodesStep env st = Except.ok st1 → st1 = ⟨st.nodes + 1, st.s⟩) ∧
    (∀ (S : Type) (env : SearchEnv S) (fuel : Nat) (pos : Position) (a b d : Int)
        (hh : Nat) (st : SState S) (r : Int) (st' : SState S),
      quiescence env fuel pos a b d hh st = Except.ok (r, st') →
      st.nodes + 1 ≤ st'.nodes) ∧
    (∀ (S : Type) (env : SearchEnv S) (fuel : Nat) (below : List Position) (pos : Position)
        (a b d : Int) (st : SState S) (r : Int) (st' : SState S),
      alphaBeta env fuel below pos a b d st = Except.ok (r, st') →
      0 < d → below.length < env.maxHeight → isDraw env below pos = false →
      st.nodes + 1 ≤ st'.nodes) ∧
    (∀ (S : Type) (env : SearchEnv S) (n : Nat) (pos : Position) (a b d : Int) (hh : Nat)
        (st : SState S) (f : Fault),
      incNodesStep env st = Except.error f →
      quiescence env (n + 1) pos a b d hh st = Except.error f) ∧
    ((recoverFromSearchTimeout (Except.error Panicv.timeout) = Except.ok ()) ∧
      (∀ k, recoverFromSearchTimeout (Except.error (Panicv.other k)) =
        Except.error (Panicv.other k)) ∧
      recoverFromSearchTimeout (Except.ok ()) = Except.ok ()) := by
  refine ⟨?_, ?_, ?_, ?_, rfl, fun k => rfl, rfl⟩
  · intro S env st
    exact ⟨incNodes_error_iff env st, fun st1 h => incNodes_ok_eq env st st1 h⟩
  · intro S env fuel pos a b d hh st r st' h
    exact quiescence_nodes env fuel pos a b d hh st r st' h
  · intro S env fuel below pos a b d st r st' h hd hlen hdraw
    exact (alphaBeta_nodes_both env fuel below pos a b d st r st' h).2 hd hlen hdraw
  · intro S env n pos a b d hh st f hq
    simp only [quiescence]
    rw [hq]

theorem claimC5_witness :
    quiescence envUnit 1 pX 0 1 1 0 ⟨0, ()⟩ =
        Except.ok (-1000, (⟨1, ()⟩ : SState Unit)) ∧
      (0 : Nat) + 1 ≤ (1 : Nat) :=
  ⟨by rfl, claimC5.2.1 Unit envUnit 1 pX 0 1 1 0 ⟨0, ()⟩ (-1000) ⟨1, ()⟩ (by rfl)⟩

end CounterGo
